import Mathlib

/-!
Verification of the password-hash-service core: the record store with its
deferred SHA-512/base64 digest computation, the statistics aggregator with
its incremental uint64 mean, and the run-once shutdown latch.  Machine
integers (Go `uint64`) are modelled as `Nat` with explicit reduction
modulo `2 ^ 64`.
-/

set_option maxRecDepth 4000

/-- The modulus of Go's `uint64` arithmetic. -/
def w64 : Nat := 2 ^ 64

/-! ### SHA-512 (FIPS 180-4) and standard base64, as used by
`crypto/sha512` and `base64.StdEncoding` in `storage.go`. -/

/-- Right rotation of a 64-bit word (input assumed `< w64`). -/
def rotr (n x : Nat) : Nat := (x >>> n) ||| ((x <<< (64 - n)) % w64)

def bS0 (x : Nat) : Nat := rotr 28 x ^^^ rotr 34 x ^^^ rotr 39 x

def bS1 (x : Nat) : Nat := rotr 14 x ^^^ rotr 18 x ^^^ rotr 41 x

def sS0 (x : Nat) : Nat := rotr 1 x ^^^ rotr 8 x ^^^ (x >>> 7)

def sS1 (x : Nat) : Nat := rotr 19 x ^^^ rotr 61 x ^^^ (x >>> 6)

def chF (x y z : Nat) : Nat := (x &&& y) ^^^ ((x ^^^ (w64 - 1)) &&& z)

def majF (x y z : Nat) : Nat := (x &&& y) ^^^ (x &&& z) ^^^ (y &&& z)

/-- The eight 64-bit working variables of the SHA-512 compression. -/
structure S8 where (a b c d e f g h : Nat)
deriving DecidableEq

/-- The eighty SHA-512 round constants. -/
def sha512K : List Nat :=
  [4794697086780616226, 8158064640168781261, 13096744586834688815, 16840607885511220156,
   4131703408338449720, 6480981068601479193, 10538285296894168987, 12329834152419229976,
   15566598209576043074, 1334009975649890238, 2608012711638119052, 6128411473006802146,
   8268148722764581231, 9286055187155687089, 11230858885718282805, 13951009754708518548,
   16472876342353939154, 17275323862435702243, 1135362057144423861, 2597628984639134821,
   3308224258029322869, 5365058923640841347, 6679025012923562964, 8573033837759648693,
   10970295158949994411, 12119686244451234320, 12683024718118986047, 13788192230050041572,
   14330467153632333762, 15395433587784984357, 489312712824947311, 1452737877330783856,
   2861767655752347644, 3322285676063803686, 5560940570517711597, 5996557281743188959,
   7280758554555802590, 8532644243296465576, 9350256976987008742, 10552545826968843579,
   11727347734174303076, 12113106623233404929, 14000437183269869457, 14369950271660146224,
   15101387698204529176, 15463397548674623760, 17586052441742319658, 1182934255886127544,
   1847814050463011016, 2177327727835720531, 2830643537854262169, 3796741975233480872,
   4115178125766777443, 5681478168544905931, 6601373596472566643, 7507060721942968483,
   8399075790359081724, 8693463985226723168, 9568029438360202098, 10144078919501101548,
   10430055236837252648, 11840083180663258601, 13761210420658862357, 14299343276471374635,
   14566680578165727644, 15097957966210449927, 16922976911328602910, 17689382322260857208,
   500013540394364858, 748580250866718886, 1242879168328830382, 1977374033974150939,
   2944078676154940804, 3659926193048069267, 4368137639120453308, 4836135668995329356,
   5532061633213252278, 6448918945643986474, 6902733635092675308, 7801388544844847127]

/-- The SHA-512 initial hash value. -/
def sha512H0 : S8 :=
  ⟨7640891576956012808, 13503953896175478587, 4354685564936845355, 11912009170470909681,
   5840696475078001361, 11170449401992604703, 2270897969802886507, 6620516959819538809⟩

/-- One word of the message schedule, computed from the previous words
(most recent first). -/
def schedW (ws : List Nat) : Nat :=
  (sS1 (ws.getD 1 0) + ws.getD 6 0 + sS0 (ws.getD 14 0) + ws.getD 15 0) % w64

/-- Extend the message schedule by `n` words (list kept in reverse). -/
def buildSched : Nat → List Nat → List Nat
  | 0, ws => ws
  | n + 1, ws => buildSched n (schedW ws :: ws)

/-- The sixteen big-endian 64-bit words of a 128-byte block. -/
def words16 (block : List Nat) : List Nat :=
  (List.range 16).map
    (fun i => ((block.drop (8 * i)).take 8).foldl (fun acc b => acc * 256 + b) 0)

/-- The full eighty-word message schedule of a block. -/
def fullSched (block : List Nat) : List Nat :=
  (buildSched 64 (words16 block).reverse).reverse

/-- One round of the SHA-512 compression function. -/
def roundStep (s : S8) (kw : Nat × Nat) : S8 :=
  let t1 := (s.h + bS1 s.e + chF s.e s.f s.g + kw.1 + kw.2) % w64
  let t2 := (bS0 s.a + majF s.a s.b s.c) % w64
  ⟨(t1 + t2) % w64, s.a, s.b, s.c, (s.d + t1) % w64, s.e, s.f, s.g⟩

/-- Process one 128-byte block. -/
def compress (h0 : S8) (block : List Nat) : S8 :=
  let f := (sha512K.zip (fullSched block)).foldl roundStep h0
  ⟨(h0.a + f.a) % w64, (h0.b + f.b) % w64, (h0.c + f.c) % w64, (h0.d + f.d) % w64,
   (h0.e + f.e) % w64, (h0.f + f.f) % w64, (h0.g + f.g) % w64, (h0.h + f.h) % w64⟩

/-- SHA-512 padding: append `128`, zeros and the 128-bit bit length. -/
def padMsg (msg : List Nat) : List Nat :=
  let len := msg.length
  let zeros := (112 + 128 - ((len + 1) % 128)) % 128
  msg ++ 128 :: (List.replicate zeros 0 ++
    (List.range 16).map (fun i => ((8 * len) >>> (8 * (15 - i))) % 256))

/-- Split a byte list into 128-byte blocks (fuel-driven for structural
recursion). -/
def chunk128 : Nat → List Nat → List (List Nat)
  | 0, _ => []
  | _, [] => []
  | fuel + 1, bs => bs.take 128 :: chunk128 fuel (bs.drop 128)

/-- Big-endian bytes of a 64-bit word. -/
def bytes8 (w : Nat) : List Nat :=
  (List.range 8).map (fun i => (w >>> (8 * (7 - i))) % 256)

/-- The 64 output bytes of a final SHA-512 state. -/
def digestBytes (s : S8) : List Nat :=
  bytes8 s.a ++ bytes8 s.b ++ bytes8 s.c ++ bytes8 s.d ++
    bytes8 s.e ++ bytes8 s.f ++ bytes8 s.g ++ bytes8 s.h

/-- SHA-512 of a byte sequence. -/
def sha512Bytes (msg : List Nat) : List Nat :=
  let padded := padMsg msg
  digestBytes ((chunk128 padded.length padded).foldl compress sha512H0)

/-- UTF-8 encoding of one character (Go `[]byte(pw)` semantics). -/
def utf8Char (c : Char) : List Nat :=
  let n := c.toNat
  if n < 128 then [n]
  else if n < 2048 then [192 + n / 64, 128 + n % 64]
  else if n < 65536 then [224 + n / 4096, 128 + (n / 64) % 64, 128 + n % 64]
  else [240 + n / 262144, 128 + (n / 4096) % 64, 128 + (n / 64) % 64, 128 + n % 64]

/-- The raw bytes of a string, as Go's `[]byte` conversion produces. -/
def utf8Bytes (s : String) : List Nat :=
  s.data.foldr (fun c acc => utf8Char c ++ acc) []

/-- The standard base64 alphabet. -/
def b64Table : List Char :=
  "ABCDEFGHIJKLMNOPQRSTUVWXYZabcdefghijklmnopqrstuvwxyz0123456789+/".data

def b64c (n : Nat) : Char := b64Table.getD n 'A'

/-- Standard padded base64 of a byte list (`base64.StdEncoding`). -/
def b64Encode : List Nat → List Char
  | [] => []
  | [b1] => [b64c (b1 / 4), b64c ((b1 % 4) * 16), '=', '=']
  | [b1, b2] => [b64c (b1 / 4), b64c ((b1 % 4) * 16 + b2 / 16), b64c ((b2 % 16) * 4), '=']
  | b1 :: b2 :: b3 :: rest =>
      b64c (b1 / 4) :: b64c ((b1 % 4) * 16 + b2 / 16) ::
        b64c ((b2 % 16) * 4 + b3 / 64) :: b64c (b3 % 64) :: b64Encode rest

def base64StdEncode (bs : List Nat) : String := String.mk (b64Encode bs)

/-- The digest stored by the deferred task in `AddPassword`:
`base64.StdEncoding.EncodeToString(sha512(pw bytes))`. -/
def hashOf (pw : String) : String := base64StdEncode (sha512Bytes (utf8Bytes pw))

/-! ### The statistics aggregator (`HashStatsStorage` in the unnamed
stats source file). -/

/-- The statistics record: total call count and running mean, both
Go `uint64` values. -/
structure HashStats where (Total Average : Nat)
deriving DecidableEq

/-- `NewHashStatsStorage` yields the zero value: `Total = 0`,
`Average = 0`. -/
def NewHashStatsStorage : HashStats := ⟨0, 0⟩

/-- `HashStatsStorage.Update`:
`Average = (Average*Total + elapsed) / (Total + 1); Total++`, all in
`uint64` arithmetic.  A zero divisor (`Total + 1` wrapping to `0`) is a
Go runtime panic, modelled as `none`. -/
def Update (s : HashStats) (e : Nat) : Option HashStats :=
  let den := (s.Total + 1) % w64
  if den = 0 then none
  else some ⟨den, (((s.Average * s.Total) % w64 + e) % w64) / den⟩

/-- `GetCurrentStats` returns the current statistics pair. -/
def GetCurrentStats (s : HashStats) : HashStats := s

/-- A sequence of `Update` calls (propagating the panic case). -/
def runUpdates (s : HashStats) : List Nat → Option HashStats
  | [] => some s
  | e :: l =>
    match Update s e with
    | none => none
    | some s1 => runUpdates s1 l

/-- The update transformation exactly as the specification words it:
`(total, mean) ↦ (total+1, (mean*total + e)/(total+1))` read in unsigned
(modulo `2^64`) arithmetic, the zero divisor being the undefined case. -/
def updateSpecFormula (s : HashStats) (e : Nat) : Option HashStats :=
  if (s.Total + 1) % w64 = 0 then none
  else some ⟨(s.Total + 1) % w64,
    ((s.Average * s.Total + e) % w64) / ((s.Total + 1) % w64)⟩

/-! ### The record store (`HashStorage` in `storage.go`).

The mutable state is the `data` map (association list, most recent entry
first, as Go map assignment overwrites), the `uint64` key counter, and —
to give the in-flight deferred goroutines a place in the model — the
multiset of scheduled-but-not-yet-completed digest tasks. -/

structure HashStorage where
  data : List (Nat × String)
  currentKey : Nat
  pending : List (Nat × String)
deriving DecidableEq

/-- `NewHashStorage`: empty map, counter `0`, no tasks. -/
def NewHashStorage : HashStorage := ⟨[], 0, []⟩

/-- `AddPassword`: increment the `uint64` counter, return it, and
schedule the deferred digest task for the new key. -/
def AddPassword (s : HashStorage) (pw : String) : Nat × HashStorage :=
  let u := (s.currentKey + 1) % w64
  (u, ⟨s.data, u, s.pending ++ [(u, pw)]⟩)

/-- `GetPasswordHash`: map lookup; `none` models `ok = false`. -/
def GetPasswordHash (s : HashStorage) (u : Nat) : Option String :=
  s.data.lookup u

/-- Events of the store: a submission, or the completion of a scheduled
deferred task (`ok = false` is the digest-write failure path, which
stores nothing). -/
inductive StoreEv where
  | add (pw : String)
  | complete (u : Nat) (pw : String) (ok : Bool)
deriving DecidableEq

/-- One atomic step of the store. A completion only fires for a task
that is actually in flight; on success it assigns `data[u] = hashOf pw`
(overwriting as a Go map does), on failure it stores nothing. -/
def storeStep (s : HashStorage) : StoreEv → HashStorage
  | StoreEv.add pw => (AddPassword s pw).2
  | StoreEv.complete u pw ok =>
    if (u, pw) ∈ s.pending then
      ⟨if ok then (u, hashOf pw) :: s.data else s.data,
       s.currentKey, s.pending.erase (u, pw)⟩
    else s

/-- Run a trace of events from a state. -/
def runFrom (s : HashStorage) : List StoreEv → HashStorage
  | [] => s
  | e :: tr => runFrom (storeStep s e) tr

/-- Run a trace from the freshly constructed store. -/
def runStore (tr : List StoreEv) : HashStorage := runFrom NewHashStorage tr

/-- The keys returned by the `add` events of a trace, in order. -/
def keysOf (s : HashStorage) : List StoreEv → List Nat
  | [] => []
  | StoreEv.add pw :: tr =>
      (s.currentKey + 1) % w64 :: keysOf (storeStep s (StoreEv.add pw)) tr
  | StoreEv.complete u pw ok :: tr => keysOf (storeStep s (StoreEv.complete u pw ok)) tr

/-- The keys whose deferred task completed successfully (stored a digest)
during a trace. -/
def storedKeys (s : HashStorage) : List StoreEv → List Nat
  | [] => []
  | StoreEv.add pw :: tr => storedKeys (storeStep s (StoreEv.add pw)) tr
  | StoreEv.complete u pw ok :: tr =>
      if (u, pw) ∈ s.pending ∧ ok = true then
        u :: storedKeys (storeStep s (StoreEv.complete u pw ok)) tr
      else storedKeys (storeStep s (StoreEv.complete u pw ok)) tr

/-- The keys whose deferred task completed with the failure path (stored
nothing) during a trace. -/
def failedKeys (s : HashStorage) : List StoreEv → List Nat
  | [] => []
  | StoreEv.add pw :: tr => failedKeys (storeStep s (StoreEv.add pw)) tr
  | StoreEv.complete u pw ok :: tr =>
      if (u, pw) ∈ s.pending ∧ ok = false then
        u :: failedKeys (storeStep s (StoreEv.complete u pw ok)) tr
      else failedKeys (storeStep s (StoreEv.complete u pw ok)) tr

/-- The number of `add` events of a trace. -/
def addCount : List StoreEv → Nat
  | [] => 0
  | StoreEv.add _ :: tr => addCount tr + 1
  | StoreEv.complete _ _ _ :: tr => addCount tr

/-- A trace of `n` submissions with passwords `f 0, …, f (n-1)`. -/
def addsN (n : Nat) (f : Nat → String) : List StoreEv :=
  (List.range n).map (fun k => StoreEv.add (f k))

def dataKeys (s : HashStorage) : List Nat := s.data.map Prod.fst

def pendKeys (s : HashStorage) : List Nat := s.pending.map Prod.fst

def allKeys (s : HashStorage) : List Nat := dataKeys s ++ pendKeys s

/-- The store invariant after `n` submissions, meaningful while the
counter has not wrapped: the counter mirrors `n`, every key in the map or
in flight lies in `[1, n]`, and no key occurs twice. -/
def StoreInv (s : HashStorage) (n : Nat) : Prop :=
  s.currentKey = n % w64 ∧ (allKeys s).Nodup ∧ ∀ u ∈ allKeys s, 1 ≤ u ∧ u ≤ n

/-! ### The shutdown latch (`initiateShutdown` in `service.go`). -/

/-- The shutdown coordination state: the `sync.Once` flag, the number of
times the guarded shutdown sequence (`srv.Shutdown`) has run, and the
number of times the completion channel has been closed. -/
structure ShutdownState where
  onceDone : Bool
  shutdownSeqRuns : Nat
  closeSignalFires : Nat
deriving DecidableEq

/-- The freshly constructed service: latch unfired, nothing run. -/
def newShutdownState : ShutdownState := ⟨false, 0, 0⟩

/-- `initiateShutdown`: `once.Do` of the shutdown sequence — a no-op if
the latch has fired, otherwise it fires the latch and executes the
sequence (server shutdown, then closing the completion channel). -/
def initiateShutdown (s : ShutdownState) : ShutdownState :=
  if s.onceDone then s
  else ⟨true, s.shutdownSeqRuns + 1, s.closeSignalFires + 1⟩

/-- Passwords used in the counter-wrap scenario: `"a"` for the first
submission, `"b"` for all later ones. -/
def cxF : Nat → String := fun k => if k = 0 then "a" else "b"

/-- A trace of `2^64 + 1` submissions (the `uint64` counter wraps and
key `1` is handed out twice) followed by the completion of the first
submission's task. -/
def cxTr : List StoreEv := addsN (w64 + 1) cxF ++ [StoreEv.complete 1 "a" true]

/-- The completion of the second task that carries key `1`. -/
def cxTr2 : List StoreEv := [StoreEv.complete 1 "b" true]

/-- The tasks still in flight after the `2^64 + 1` submissions of `cxTr`
minus the first one: the `2^64`-th wraps to key `0` and the last one
reuses key `1`. -/
def cxPtail : List (Nat × String) :=
  (List.range w64).map (fun k => ((k + 2) % w64, cxF (k + 1)))

/-! ### Basic facts -/

theorem w64_eq : w64 = 18446744073709551616 := by norm_num [w64]

theorem w64_pos : 0 < w64 := by rw [w64_eq]; omega

/-! ### Association-list lookup lemmas -/

theorem lookup_cons_self {l : List (Nat × String)} {u : Nat} {d : String} :
    ((u, d) :: l).lookup u = some d := by
  simp [List.lookup]

theorem lookup_cons_ne {l : List (Nat × String)} {u v : Nat} {d : String}
    (h : u ≠ v) : ((v, d) :: l).lookup u = l.lookup u := by
  simp [List.lookup, beq_eq_false_iff_ne.mpr h]

theorem lookup_mem {l : List (Nat × String)} {u : Nat} {d : String}
    (h : l.lookup u = some d) : (u, d) ∈ l := by
  induction l with
  | nil => simp [List.lookup] at h
  | cons p t ih =>
    obtain ⟨k, v⟩ := p
    by_cases hk : u = k
    · subst hk
      simp [List.lookup] at h
      simp [h]
    · rw [lookup_cons_ne hk] at h
      exact List.mem_cons_of_mem _ (ih h)

theorem lookup_none_of_not_mem {l : List (Nat × String)} {u : Nat}
    (h : u ∉ l.map Prod.fst) : l.lookup u = none := by
  induction l with
  | nil => rfl
  | cons p t ih =>
    obtain ⟨k, v⟩ := p
    rw [List.map_cons] at h
    simp only [List.mem_cons, not_or] at h
    rw [lookup_cons_ne h.1]
    exact ih h.2

/-! ### Statistics aggregator results -/

theorem runUpdates_bound (l : List Nat) :
    ∀ s : HashStats, s.Average * s.Total + l.sum < w64 → s.Total + l.length < w64 →
    ∃ s2, runUpdates s l = some s2 ∧ s2.Total = s.Total + l.length ∧
      s2.Average * s2.Total ≤ s.Average * s.Total + l.sum := by
  induction l with
  | nil =>
    intro s _ _
    exact ⟨s, rfl, by simp, by simp⟩
  | cons e l ih =>
    intro s h1 h2
    rw [List.sum_cons] at h1
    rw [List.length_cons] at h2
    have ht1 : s.Total + 1 < w64 := by omega
    have hden : (s.Total + 1) % w64 = s.Total + 1 := Nat.mod_eq_of_lt ht1
    have hnum : s.Average * s.Total + e < w64 := by omega
    have hmodnum : ((s.Average * s.Total) % w64 + e) % w64 = s.Average * s.Total + e := by
      rw [Nat.mod_add_mod]
      exact Nat.mod_eq_of_lt hnum
    have hupd : Update s e =
        some ⟨s.Total + 1, (s.Average * s.Total + e) / (s.Total + 1)⟩ := by
      simp only [Update, hden, hmodnum]
      rw [if_neg (by omega)]
    have hkey : ((s.Average * s.Total + e) / (s.Total + 1)) * (s.Total + 1) ≤
        s.Average * s.Total + e := Nat.div_mul_le_self _ _
    have ha : ((s.Average * s.Total + e) / (s.Total + 1)) * (s.Total + 1) + l.sum < w64 := by
      omega
    have hb : (s.Total + 1) + l.length < w64 := by omega
    obtain ⟨s2, hrun, htot, havg⟩ :=
      ih ⟨s.Total + 1, (s.Average * s.Total + e) / (s.Total + 1)⟩ ha hb
    have htot2 : s2.Total = s.Total + 1 + l.length := htot
    have havg2 : s2.Average * s2.Total ≤
        ((s.Average * s.Total + e) / (s.Total + 1)) * (s.Total + 1) + l.sum := havg
    refine ⟨s2, ?_, ?_, ?_⟩
    · simp only [runUpdates, hupd]
      exact hrun
    · rw [List.length_cons]
      omega
    · rw [List.sum_cons]
      omega

/-- Claim C9: in the freshly constructed statistics state, before any
`Update` call, the snapshot is `Total = 0`, `Average = 0` — a defined
value given explicitly by the zero-valued constructor, not through the
update formula, so no division takes place in reaching it. -/
theorem initial_stats_zero :
    GetCurrentStats NewHashStatsStorage = ⟨0, 0⟩ ∧
    (GetCurrentStats NewHashStatsStorage).Total = 0 ∧
    (GetCurrentStats NewHashStatsStorage).Average = 0 :=
  ⟨rfl, rfl, rfl⟩

/-- Claim C3: `Update` realises exactly the transformation
`(total, mean) ↦ (total + 1, (mean*total + e)/(total + 1))` read in
unsigned (modulo `2^64`) arithmetic and touches no other state, and the
concrete scenario `1000, 2000, 3000` from the initial state snapshots to
`(total = 3, average = 2000)`. -/
theorem update_matches_spec_formula :
    (∀ (s : HashStats) (e : Nat), Update s e = updateSpecFormula s e) ∧
    runUpdates NewHashStatsStorage [1000, 2000, 3000] =
      some ⟨3, 2000⟩ ∧ GetCurrentStats ⟨3, 2000⟩ = ⟨3, 2000⟩ := by
  refine ⟨fun s e => ?_, by decide, rfl⟩
  simp only [Update, updateSpecFormula, Nat.mod_add_mod]

/-- Claim C10: all `Update` arithmetic is modulo `2^64`; the divisor
`(Total + 1) % 2^64` is nonzero — and the division therefore defined —
exactly when `Total < 2^64 - 1`, while at `Total = 2^64 - 1` the divisor
wraps to `0` and the update is a division by zero (a Go runtime panic,
modelled as `none`). -/
theorem update_div_safety (s : HashStats) (e : Nat) :
    (s.Total < w64 - 1 → (s.Total + 1) % w64 ≠ 0 ∧ ∃ s2, Update s e = some s2) ∧
    (s.Total = w64 - 1 → (s.Total + 1) % w64 = 0 ∧ Update s e = none) := by
  have hw := w64_eq
  constructor
  · intro h
    have hlt : s.Total + 1 < w64 := by omega
    have hden : (s.Total + 1) % w64 = s.Total + 1 := Nat.mod_eq_of_lt hlt
    refine ⟨by omega,
      ⟨⟨s.Total + 1, (((s.Average * s.Total) % w64 + e) % w64) / (s.Total + 1)⟩, ?_⟩⟩
    simp only [Update, hden]
    rw [if_neg (by omega)]
  · intro h
    have hden : (s.Total + 1) % w64 = 0 := by
      rw [h, Nat.sub_add_cancel (by omega)]
      exact Nat.mod_self _
    exact ⟨hden, by simp [Update, hden]⟩

/-- Witness for C10 at `Total = 3` (divisor defined) and at
`Total = 2^64 - 1` (divisor wraps to zero). -/
theorem update_div_safety_w :
    (((⟨3, 5⟩ : HashStats).Total + 1) % w64 ≠ 0 ∧
      ∃ s2, Update ⟨3, 5⟩ 7 = some s2) ∧
    (((⟨w64 - 1, 0⟩ : HashStats).Total + 1) % w64 = 0 ∧
      Update ⟨w64 - 1, 0⟩ 0 = none) :=
  ⟨(update_div_safety ⟨3, 5⟩ 7).1 (by decide),
   (update_div_safety ⟨w64 - 1, 0⟩ 0).2 rfl⟩

/-- Claim C5 (amended): after recording `e1 … eN` (no `uint64` overflow:
total sum and count below `2^64`), the snapshot's total is `N` and its
average is a lower approximation of the exact arithmetic mean:
`average * N ≤ e1 + … + eN`.  Equality with the exact floor mean can
fail because the per-step floor divisions compound. -/
theorem stats_average_le_mean (l : List Nat)
    (h1 : l.sum < w64) (h2 : l.length < w64) :
    ∃ s, runUpdates NewHashStatsStorage l = some s ∧ s.Total = l.length ∧
      s.Average * l.length ≤ l.sum := by
  obtain ⟨s, hrun, htot, havg⟩ :=
    runUpdates_bound l NewHashStatsStorage (by simpa [NewHashStatsStorage] using h1)
      (by simpa [NewHashStatsStorage] using h2)
  refine ⟨s, hrun, by simpa [NewHashStatsStorage] using htot, ?_⟩
  simp [NewHashStatsStorage] at htot havg
  rw [htot] at havg
  simpa using havg

/-- Witness for the amended C5 on the concrete scenario `1000, 2000,
3000`. -/
theorem stats_average_le_mean_w :
    ∃ s, runUpdates NewHashStatsStorage [1000, 2000, 3000] = some s ∧
      s.Total = ([1000, 2000, 3000] : List Nat).length ∧
      s.Average * ([1000, 2000, 3000] : List Nat).length ≤
        ([1000, 2000, 3000] : List Nat).sum :=
  stats_average_le_mean [1000, 2000, 3000] (by decide) (by decide)

/-- Counterexample to C5 as frozen: recording `3, 0, 0` yields average
`0`, while the exact floor arithmetic mean of these values is `1`. -/
theorem stats_average_not_exact_mean :
    runUpdates NewHashStatsStorage [3, 0, 0] = some ⟨3, 0⟩ ∧
    ([3, 0, 0] : List Nat).sum / ([3, 0, 0] : List Nat).length = 1 ∧
    (0 : Nat) ≠ 1 := by
  refine ⟨by decide, by decide, by decide⟩

/-! ### Shutdown latch results -/

/-- Claim C4: for every `M ≥ 1`, after `M` calls to `initiateShutdown`
the guarded shutdown sequence has run exactly once and the completion
signal has fired exactly once, and any call finding the latch fired is a
no-op. -/
theorem shutdown_once (M : Nat) (h : 1 ≤ M) :
    initiateShutdown^[M] newShutdownState = ⟨true, 1, 1⟩ ∧
    ∀ s : ShutdownState, s.onceDone = true → initiateShutdown s = s := by
  constructor
  · obtain ⟨k, rfl⟩ : ∃ k, M = k + 1 := ⟨M - 1, by omega⟩
    rw [Function.iterate_succ_apply]
    have h1 : initiateShutdown newShutdownState = ⟨true, 1, 1⟩ := rfl
    rw [h1]
    exact Function.iterate_fixed rfl k
  · intro s hs
    simp [initiateShutdown, hs]

/-- Witness for C4 at `M = 5`. -/
theorem shutdown_once_w :
    initiateShutdown^[5] newShutdownState = ⟨true, 1, 1⟩ :=
  (shutdown_once 5 (by omega)).1

/-! ### Record store: trace lemmas -/

theorem runFrom_append (tr1 tr2 : List StoreEv) :
    ∀ s, runFrom s (tr1 ++ tr2) = runFrom (runFrom s tr1) tr2 := by
  induction tr1 with
  | nil => intro s; rfl
  | cons e tr ih =>
    intro s
    rw [List.cons_append]
    simp only [runFrom]
    exact ih (storeStep s e)

theorem keysOf_append (tr1 tr2 : List StoreEv) :
    ∀ s, keysOf s (tr1 ++ tr2) = keysOf s tr1 ++ keysOf (runFrom s tr1) tr2 := by
  induction tr1 with
  | nil => intro s; rfl
  | cons e tr ih =>
    intro s
    rw [List.cons_append]
    cases e with
    | add pw =>
      simp only [keysOf, runFrom]
      rw [ih (storeStep s (StoreEv.add pw)), List.cons_append]
    | complete u pw ok =>
      simp only [keysOf, runFrom]
      exact ih (storeStep s (StoreEv.complete u pw ok))

theorem addCount_append (tr1 tr2 : List StoreEv) :
    addCount (tr1 ++ tr2) = addCount tr1 + addCount tr2 := by
  induction tr1 with
  | nil => simp [addCount]
  | cons e tr ih =>
    cases e with
    | add pw =>
      simp only [List.cons_append, addCount, List.append_eq, ih]
      omega
    | complete u pw ok =>
      simp only [List.cons_append, addCount, List.append_eq, ih]

theorem allKeys_add (s : HashStorage) (pw : String) :
    allKeys (storeStep s (StoreEv.add pw)) = allKeys s ++ [(s.currentKey + 1) % w64] := by
  simp [storeStep, AddPassword, allKeys, dataKeys, pendKeys]

theorem pendKeys_add (s : HashStorage) (pw : String) :
    pendKeys (storeStep s (StoreEv.add pw)) = pendKeys s ++ [(s.currentKey + 1) % w64] := by
  simp [storeStep, AddPassword, pendKeys]

theorem dataKeys_add (s : HashStorage) (pw : String) :
    dataKeys (storeStep s (StoreEv.add pw)) = dataKeys s := by
  simp [storeStep, AddPassword, dataKeys]

/-- In a pending list whose keys are nodup, erasing the unique task for a
key removes that key from the key multiset. -/
theorem not_mem_keys_erase :
    ∀ (l : List (Nat × String)) (u : Nat) (pw : String),
      (l.map Prod.fst).Nodup → (u, pw) ∈ l → u ∉ (l.erase (u, pw)).map Prod.fst := by
  intro l
  induction l with
  | nil => simp
  | cons p t ih =>
    intro u pw hnd hmem
    by_cases hp : p = (u, pw)
    · subst hp
      rw [List.erase_cons_head]
      rw [List.map_cons, List.nodup_cons] at hnd
      exact hnd.1
    · rw [List.erase_cons_tail (by simpa using hp)]
      rw [List.map_cons, List.nodup_cons] at hnd
      rcases List.mem_cons.mp hmem with h | h
      · exact absurd h.symm hp
      · intro hcon
        rw [List.map_cons] at hcon
        rcases List.mem_cons.mp hcon with h1 | h1
        · exact hnd.1 (h1 ▸ List.mem_map.mpr ⟨(u, pw), h, rfl⟩)
        · exact ih u pw hnd.2 h h1

theorem keys_erase_subset (l : List (Nat × String)) (x : Nat × String) :
    ((l.erase x).map Prod.fst) ⊆ l.map Prod.fst :=
  ((l.erase_sublist x).map Prod.fst).subset

theorem keys_erase_nodup (l : List (Nat × String)) (x : Nat × String)
    (h : (l.map Prod.fst).Nodup) : ((l.erase x).map Prod.fst).Nodup :=
  ((l.erase_sublist x).map Prod.fst).nodup h

theorem storeStep_add (s : HashStorage) (pw : String) :
    storeStep s (StoreEv.add pw) =
      ⟨s.data, (s.currentKey + 1) % w64, s.pending ++ [((s.currentKey + 1) % w64, pw)]⟩ := rfl

theorem storeStep_complete_ok (s : HashStorage) (u : Nat) (pw : String)
    (hmem : (u, pw) ∈ s.pending) :
    storeStep s (StoreEv.complete u pw true) =
      ⟨(u, hashOf pw) :: s.data, s.currentKey, s.pending.erase (u, pw)⟩ := by
  simp [storeStep, hmem]

theorem storeStep_complete_ok2 (dl : List (Nat × String)) (ck : Nat)
    (pl : List (Nat × String)) (u : Nat) (pw : String) (hmem : (u, pw) ∈ pl) :
    storeStep ⟨dl, ck, pl⟩ (StoreEv.complete u pw true) =
      ⟨(u, hashOf pw) :: dl, ck, pl.erase (u, pw)⟩ :=
  storeStep_complete_ok ⟨dl, ck, pl⟩ u pw hmem

theorem storeStep_complete_fail (s : HashStorage) (u : Nat) (pw : String)
    (hmem : (u, pw) ∈ s.pending) :
    storeStep s (StoreEv.complete u pw false) =
      ⟨s.data, s.currentKey, s.pending.erase (u, pw)⟩ := by
  simp [storeStep, hmem]

theorem storeStep_complete_invalid (s : HashStorage) (u : Nat) (pw : String) (ok : Bool)
    (hmem : (u, pw) ∉ s.pending) :
    storeStep s (StoreEv.complete u pw ok) = s := by
  simp [storeStep, hmem]

/-! ### Record store: the no-wrap invariant -/

theorem storeInv_init : StoreInv NewHashStorage 0 := by
  refine ⟨by simp [NewHashStorage], by simp [NewHashStorage, allKeys, dataKeys, pendKeys], ?_⟩
  intro u hu
  simp [NewHashStorage, allKeys, dataKeys, pendKeys] at hu

theorem storeInv_add (s : HashStorage) (n : Nat) (pw : String)
    (h : StoreInv s n) (hn : n + 1 < w64) : StoreInv (storeStep s (StoreEv.add pw)) (n + 1) := by
  obtain ⟨hck, hnd, hb⟩ := h
  have hnlt : n < w64 := by omega
  have hkey : (s.currentKey + 1) % w64 = n + 1 := by
    rw [hck, Nat.mod_eq_of_lt hnlt]
    exact Nat.mod_eq_of_lt hn
  refine ⟨?_, ?_, ?_⟩
  · rw [storeStep_add]
    rw [hkey, Nat.mod_eq_of_lt hn]
  · rw [allKeys_add, hkey, List.nodup_append]
    refine ⟨hnd, List.nodup_singleton _, ?_⟩
    intro a ha ha2
    have := hb a ha
    simp at ha2
    omega
  · intro u hu
    rw [allKeys_add, hkey] at hu
    rcases List.mem_append.mp hu with h1 | h1
    · have := hb u h1
      omega
    · simp at h1
      omega

theorem storeInv_complete (s : HashStorage) (n : Nat) (u : Nat) (pw : String) (ok : Bool)
    (h : StoreInv s n) : StoreInv (storeStep s (StoreEv.complete u pw ok)) n := by
  obtain ⟨hck, hnd, hb⟩ := h
  by_cases hmem : (u, pw) ∈ s.pending
  · have hu : u ∈ pendKeys s := List.mem_map.mpr ⟨(u, pw), hmem, rfl⟩
    have hdnd : (dataKeys s).Nodup := (List.nodup_append.mp hnd).1
    have hpnd : (pendKeys s).Nodup := (List.nodup_append.mp hnd).2.1
    have hdisj : List.Disjoint (dataKeys s) (pendKeys s) := (List.nodup_append.mp hnd).2.2
    have hnotE : u ∉ (s.pending.erase (u, pw)).map Prod.fst :=
      not_mem_keys_erase _ _ _ hpnd hmem
    have hsubE := keys_erase_subset s.pending (u, pw)
    have hndE := keys_erase_nodup s.pending (u, pw) hpnd
    cases ok with
    | true =>
      rw [storeStep_complete_ok s u pw hmem]
      refine ⟨hck, ?_, ?_⟩
      · show ((u :: s.data.map Prod.fst) ++ (s.pending.erase (u, pw)).map Prod.fst).Nodup
        refine List.nodup_append.mpr ⟨List.nodup_cons.mpr ⟨fun hc => hdisj hc hu, hdnd⟩,
          hndE, ?_⟩
        intro a ha haE
        rcases List.mem_cons.mp ha with rfl | ha2
        · exact hnotE haE
        · exact hdisj ha2 (hsubE haE)
      · intro v hv
        rcases List.mem_append.mp hv with h1 | h1
        · rcases List.mem_cons.mp h1 with rfl | h2
          · exact hb v (List.mem_append.mpr (Or.inr hu))
          · exact hb v (List.mem_append.mpr (Or.inl h2))
        · exact hb v (List.mem_append.mpr (Or.inr (hsubE h1)))
    | false =>
      rw [storeStep_complete_fail s u pw hmem]
      refine ⟨hck, ?_, ?_⟩
      · exact List.nodup_append.mpr ⟨hdnd, hndE, fun a ha haE => hdisj ha (hsubE haE)⟩
      · intro v hv
        rcases List.mem_append.mp hv with h1 | h1
        · exact hb v (List.mem_append.mpr (Or.inl h1))
        · exact hb v (List.mem_append.mpr (Or.inr (hsubE h1)))
  · rw [storeStep_complete_invalid s u pw ok hmem]
    exact ⟨hck, hnd, hb⟩

theorem storeInv_run (tr : List StoreEv) :
    ∀ (s : HashStorage) (n : Nat), StoreInv s n → n + addCount tr < w64 →
      StoreInv (runFrom s tr) (n + addCount tr) := by
  induction tr with
  | nil =>
    intro s n h _
    simpa [addCount] using h
  | cons e tr ih =>
    intro s n h hw
    cases e with
    | add pw =>
      simp only [addCount] at hw
      have h1 := storeInv_add s n pw h (by omega)
      have h2 := ih (storeStep s (StoreEv.add pw)) (n + 1) h1 (by omega)
      simp only [runFrom, addCount]
      rw [show n + (addCount tr + 1) = n + 1 + addCount tr by omega]
      exact h2
    | complete u pw ok =>
      simp only [addCount] at hw
      have h1 := storeInv_complete s n u pw ok h
      have h2 := ih (storeStep s (StoreEv.complete u pw ok)) n h1 hw
      simpa [runFrom, addCount] using h2

theorem pendKeys_complete_subset (s : HashStorage) (v : Nat) (pw : String) (ok : Bool) :
    pendKeys (storeStep s (StoreEv.complete v pw ok)) ⊆ pendKeys s := by
  by_cases hmem : (v, pw) ∈ s.pending
  · cases ok with
    | true =>
      rw [storeStep_complete_ok s v pw hmem]
      exact keys_erase_subset s.pending (v, pw)
    | false =>
      rw [storeStep_complete_fail s v pw hmem]
      exact keys_erase_subset s.pending (v, pw)
  · rw [storeStep_complete_invalid s v pw ok hmem]
    exact fun a ha => ha

theorem data_lookup_source (tr : List StoreEv) :
    ∀ (s : HashStorage) (u : Nat) (d : String),
      (runFrom s tr).data.lookup u = some d →
      (∃ d0, s.data.lookup u = some d0) ∨ u ∈ storedKeys s tr := by
  induction tr with
  | nil =>
    intro s u d h
    exact Or.inl ⟨d, h⟩
  | cons e tr ih =>
    intro s u d h
    rw [runFrom] at h
    rcases ih (storeStep s e) u d h with ⟨d0, h0⟩ | hst
    · cases e with
      | add pw => exact Or.inl ⟨d0, h0⟩
      | complete v pw ok =>
        by_cases hmem : (v, pw) ∈ s.pending
        · cases ok with
          | true =>
            rw [storeStep_complete_ok s v pw hmem] at h0
            dsimp only at h0
            by_cases huv : u = v
            · subst huv
              right
              simp only [storedKeys]
              rw [if_pos ⟨hmem, trivial⟩]
              exact List.mem_cons_self _ _
            · rw [lookup_cons_ne huv] at h0
              exact Or.inl ⟨d0, h0⟩
          | false =>
            rw [storeStep_complete_fail s v pw hmem] at h0
            exact Or.inl ⟨d0, h0⟩
        · rw [storeStep_complete_invalid s v pw ok hmem] at h0
          exact Or.inl ⟨d0, h0⟩
    · right
      cases e with
      | add pw =>
        simp only [storedKeys]
        exact hst
      | complete v pw ok =>
        simp only [storedKeys]
        split
        · exact List.mem_cons_of_mem _ hst
        · exact hst

theorem storedKeys_from (tr : List StoreEv) :
    ∀ (s : HashStorage) (u : Nat), u ∈ storedKeys s tr →
      u ∈ pendKeys s ∨ u ∈ keysOf s tr := by
  induction tr with
  | nil =>
    intro s u h
    simp [storedKeys] at h
  | cons e tr ih =>
    intro s u h
    cases e with
    | add pw =>
      simp only [storedKeys] at h
      rcases ih _ u h with h1 | h1
      · rw [pendKeys_add] at h1
        rcases List.mem_append.mp h1 with h2 | h2
        · exact Or.inl h2
        · simp at h2
          subst h2
          right
          simp only [keysOf]
          exact List.mem_cons_self _ _
      · right
        simp only [keysOf]
        exact List.mem_cons_of_mem _ h1
    | complete v pw ok =>
      simp only [storedKeys] at h
      by_cases hc : (v, pw) ∈ s.pending ∧ ok = true
      · rw [if_pos hc] at h
        rcases List.mem_cons.mp h with rfl | h2
        · exact Or.inl (List.mem_map.mpr ⟨(u, pw), hc.1, rfl⟩)
        · rcases ih _ u h2 with h1 | h1
          · exact Or.inl (pendKeys_complete_subset s v pw ok h1)
          · right
            simp only [keysOf]
            exact h1
      · rw [if_neg hc] at h
        rcases ih _ u h with h1 | h1
        · exact Or.inl (pendKeys_complete_subset s v pw ok h1)
        · right
          simp only [keysOf]
          exact h1

/-- Claim C6: `GetPasswordHash` answers with the absent result (`none`,
that is `found = false` — there is no error return at all), both for a
key no submission ever produced and for a key for which no deferred
computation has stored a digest; in either case the very same `none` is
returned, so the two are indistinguishable to the caller. -/
theorem fetch_absent (tr : List StoreEv) (u : Nat)
    (h : u ∉ keysOf NewHashStorage tr ∨ u ∉ storedKeys NewHashStorage tr) :
    GetPasswordHash (runStore tr) u = none := by
  rcases hcase : (runFrom NewHashStorage tr).data.lookup u with _ | d
  · exact hcase
  · exfalso
    rcases data_lookup_source tr NewHashStorage u d hcase with ⟨d0, h0⟩ | hst
    · simp [NewHashStorage, List.lookup] at h0
    · rcases storedKeys_from tr NewHashStorage u hst with h1 | h1
      · simp [NewHashStorage, pendKeys] at h1
      · rcases h with h2 | h2
        · exact h2 h1
        · exact h2 hst

/-- Witness for C6: after submitting `"a"` (key 1, digest not yet
stored), both the unknown key `7` and the pending key `1` fetch as
`none`. -/
theorem fetch_absent_w :
    ((7 ∉ keysOf NewHashStorage [StoreEv.add "a"] ∨
        7 ∉ storedKeys NewHashStorage [StoreEv.add "a"]) ∧
      GetPasswordHash (runStore [StoreEv.add "a"]) 7 = none) ∧
    ((1 ∉ keysOf NewHashStorage [StoreEv.add "a"] ∨
        1 ∉ storedKeys NewHashStorage [StoreEv.add "a"]) ∧
      GetPasswordHash (runStore [StoreEv.add "a"]) 1 = none) :=
  ⟨⟨Or.inl (by decide), fetch_absent [StoreEv.add "a"] 7 (Or.inl (by decide))⟩,
   ⟨Or.inr (by decide), fetch_absent [StoreEv.add "a"] 1 (Or.inr (by decide))⟩⟩

theorem allKeys_complete_subset (s : HashStorage) (v : Nat) (pw : String) (ok : Bool) :
    allKeys (storeStep s (StoreEv.complete v pw ok)) ⊆ allKeys s := by
  by_cases hmem : (v, pw) ∈ s.pending
  · have hv : v ∈ pendKeys s := List.mem_map.mpr ⟨(v, pw), hmem, rfl⟩
    cases ok with
    | true =>
      rw [storeStep_complete_ok s v pw hmem]
      intro a ha
      simp only [allKeys, dataKeys, pendKeys, List.map_cons] at ha
      rcases List.mem_append.mp ha with h1 | h1
      · rcases List.mem_cons.mp h1 with rfl | h2
        · exact List.mem_append.mpr (Or.inr hv)
        · exact List.mem_append.mpr (Or.inl h2)
      · exact List.mem_append.mpr (Or.inr (keys_erase_subset _ _ h1))
    | false =>
      rw [storeStep_complete_fail s v pw hmem]
      intro a ha
      simp only [allKeys, dataKeys, pendKeys] at ha
      rcases List.mem_append.mp ha with h1 | h1
      · exact List.mem_append.mpr (Or.inl h1)
      · exact List.mem_append.mpr (Or.inr (keys_erase_subset _ _ h1))
  · rw [storeStep_complete_invalid s v pw ok hmem]
    exact fun a ha => ha

theorem lookup_preserved (tr : List StoreEv) :
    ∀ (s : HashStorage) (n u : Nat) (d : String), StoreInv s n → n + addCount tr < w64 →
      s.data.lookup u = some d → (runFrom s tr).data.lookup u = some d := by
  induction tr with
  | nil =>
    intro s n u d _ _ h
    exact h
  | cons e tr ih =>
    intro s n u d hInv hw h
    cases e with
    | add pw =>
      simp only [addCount] at hw
      simp only [runFrom]
      exact ih (storeStep s (StoreEv.add pw)) (n + 1) u d
        (storeInv_add s n pw hInv (by omega)) (by omega) h
    | complete v pw ok =>
      simp only [addCount] at hw
      simp only [runFrom]
      apply ih _ n u d (storeInv_complete s n v pw ok hInv) hw
      by_cases hmem : (v, pw) ∈ s.pending
      · have hu : u ∈ dataKeys s := List.mem_map.mpr ⟨(u, d), lookup_mem h, rfl⟩
        have hv : v ∈ pendKeys s := List.mem_map.mpr ⟨(v, pw), hmem, rfl⟩
        have hdisj := (List.nodup_append.mp hInv.2.1).2.2
        have hne : u ≠ v := fun he => hdisj hu (he ▸ hv)
        cases ok with
        | true =>
          rw [storeStep_complete_ok s v pw hmem]
          dsimp only
          rw [lookup_cons_ne hne]
          exact h
        | false =>
          rw [storeStep_complete_fail s v pw hmem]
          exact h
      · rw [storeStep_complete_invalid s v pw ok hmem]
        exact h

theorem dead_key (tr : List StoreEv) :
    ∀ (s : HashStorage) (n u : Nat), StoreInv s n → n + addCount tr < w64 →
      u ∉ allKeys s → u ≤ n → u ∉ allKeys (runFrom s tr) := by
  induction tr with
  | nil =>
    intro s n u _ _ h _
    exact h
  | cons e tr ih =>
    intro s n u hInv hw hnot hle
    cases e with
    | add pw =>
      simp only [addCount] at hw
      simp only [runFrom]
      refine ih _ (n + 1) u (storeInv_add s n pw hInv (by omega)) (by omega) ?_ (by omega)
      have hkey : (s.currentKey + 1) % w64 = n + 1 := by
        rw [hInv.1, Nat.mod_eq_of_lt (show n < w64 by omega)]
        exact Nat.mod_eq_of_lt (by omega)
      rw [allKeys_add, hkey]
      intro hc
      rcases List.mem_append.mp hc with h1 | h1
      · exact hnot h1
      · simp at h1
        omega
    | complete v pw ok =>
      simp only [addCount] at hw
      simp only [runFrom]
      refine ih _ n u (storeInv_complete s n v pw ok hInv) hw ?_ hle
      exact fun hc => hnot (allKeys_complete_subset s v pw ok hc)

theorem failed_gone (tr : List StoreEv) :
    ∀ (s : HashStorage) (n u : Nat), StoreInv s n → n + addCount tr < w64 →
      u ∈ failedKeys s tr → u ∉ allKeys (runFrom s tr) ∧ u ≤ n + addCount tr := by
  induction tr with
  | nil =>
    intro s n u _ _ h
    simp [failedKeys] at h
  | cons e tr ih =>
    intro s n u hInv hw h
    cases e with
    | add pw =>
      simp only [failedKeys] at h
      simp only [addCount] at hw
      have hres := ih _ (n + 1) u (storeInv_add s n pw hInv (by omega)) (by omega) h
      simp only [runFrom, addCount]
      exact ⟨hres.1, by omega⟩
    | complete v pw ok =>
      simp only [failedKeys] at h
      simp only [addCount] at hw
      simp only [runFrom, addCount]
      by_cases hc : (v, pw) ∈ s.pending ∧ ok = false
      · rw [if_pos hc] at h
        rcases List.mem_cons.mp h with rfl | h2
        · obtain ⟨hmem, hok⟩ := hc
          subst hok
          have hv : u ∈ pendKeys s := List.mem_map.mpr ⟨(u, pw), hmem, rfl⟩
          have hle : u ≤ n := (hInv.2.2 u (List.mem_append.mpr (Or.inr hv))).2
          have hnot : u ∉ allKeys (storeStep s (StoreEv.complete u pw false)) := by
            rw [storeStep_complete_fail s u pw hmem]
            intro hcon
            simp only [allKeys, dataKeys, pendKeys] at hcon
            rcases List.mem_append.mp hcon with h1 | h1
            · exact (List.nodup_append.mp hInv.2.1).2.2 h1 hv
            · exact not_mem_keys_erase _ _ _ (List.nodup_append.mp hInv.2.1).2.1 hmem h1
          exact ⟨dead_key tr _ n u (storeInv_complete s n u pw false hInv) hw hnot hle,
            by omega⟩
        · exact ih _ n u (storeInv_complete s n v pw ok hInv) hw h2
      · rw [if_neg hc] at h
        exact ih _ n u (storeInv_complete s n v pw ok hInv) hw h

theorem stored_lookup (tr : List StoreEv) :
    ∀ (s : HashStorage) (n u : Nat), StoreInv s n → n + addCount tr < w64 →
      u ∈ storedKeys s tr → ∃ d, (runFrom s tr).data.lookup u = some d := by
  induction tr with
  | nil =>
    intro s n u _ _ h
    simp [storedKeys] at h
  | cons e tr ih =>
    intro s n u hInv hw h
    cases e with
    | add pw =>
      simp only [storedKeys] at h
      simp only [addCount] at hw
      simp only [runFrom]
      exact ih _ (n + 1) u (storeInv_add s n pw hInv (by omega)) (by omega) h
    | complete v pw ok =>
      simp only [storedKeys] at h
      simp only [addCount] at hw
      simp only [runFrom]
      by_cases hc : (v, pw) ∈ s.pending ∧ ok = true
      · rw [if_pos hc] at h
        rcases List.mem_cons.mp h with rfl | h2
        · obtain ⟨hmem, hok⟩ := hc
          subst hok
          have hlook : (storeStep s (StoreEv.complete u pw true)).data.lookup u =
              some (hashOf pw) := by
            rw [storeStep_complete_ok s u pw hmem]
            exact lookup_cons_self
          exact ⟨hashOf pw, lookup_preserved tr _ n u (hashOf pw)
            (storeInv_complete s n u pw true hInv) hw hlook⟩
        · exact ih _ n u (storeInv_complete s n v pw ok hInv) hw h2
      · rw [if_neg hc] at h
        exact ih _ n u (storeInv_complete s n v pw ok hInv) hw h

theorem task_fate (tr : List StoreEv) :
    ∀ (s : HashStorage) (n u : Nat), StoreInv s n → n + addCount tr < w64 →
      u ∈ pendKeys s →
      u ∈ pendKeys (runFrom s tr) ∨ u ∈ storedKeys s tr ∨ u ∈ failedKeys s tr := by
  induction tr with
  | nil =>
    intro s n u _ _ h
    exact Or.inl h
  | cons e tr ih =>
    intro s n u hInv hw hp
    cases e with
    | add pw =>
      simp only [addCount] at hw
      simp only [runFrom, storedKeys, failedKeys]
      refine ih _ (n + 1) u (storeInv_add s n pw hInv (by omega)) (by omega) ?_
      rw [pendKeys_add]
      exact List.mem_append.mpr (Or.inl hp)
    | complete v pw ok =>
      simp only [addCount] at hw
      simp only [runFrom, storedKeys, failedKeys]
      by_cases hmem : (v, pw) ∈ s.pending
      · by_cases huv : u = v
        · subst huv
          cases ok with
          | true =>
            right
            left
            rw [if_pos ⟨hmem, rfl⟩]
            exact List.mem_cons_self _ _
          | false =>
            right
            right
            rw [if_pos ⟨hmem, rfl⟩]
            exact List.mem_cons_self _ _
        · obtain ⟨⟨u0, pw0⟩, hpair, hfst⟩ := List.mem_map.mp hp
          dsimp only at hfst
          subst hfst
          have hne : (u0, pw0) ≠ (v, pw) := by
            intro hc
            exact huv (congrArg Prod.fst hc)
          have hstay : u0 ∈ pendKeys (storeStep s (StoreEv.complete v pw ok)) := by
            cases ok with
            | true =>
              rw [storeStep_complete_ok s v pw hmem]
              exact List.mem_map.mpr ⟨(u0, pw0), (List.mem_erase_of_ne hne).mpr hpair, rfl⟩
            | false =>
              rw [storeStep_complete_fail s v pw hmem]
              exact List.mem_map.mpr ⟨(u0, pw0), (List.mem_erase_of_ne hne).mpr hpair, rfl⟩
          rcases ih _ n u0 (storeInv_complete s n v pw ok hInv) hw hstay with h1 | h1 | h1
          · exact Or.inl h1
          · right
            left
            split
            · exact List.mem_cons_of_mem _ h1
            · exact h1
          · right
            right
            split
            · exact List.mem_cons_of_mem _ h1
            · exact h1
      · have hstep : storeStep s (StoreEv.complete v pw ok) = s :=
          storeStep_complete_invalid s v pw ok hmem
        rw [hstep, if_neg (fun hc => hmem hc.1), if_neg (fun hc => hmem hc.1)]
        exact ih _ n u hInv hw hp

theorem key_fate (tr : List StoreEv) :
    ∀ (s : HashStorage) (n u : Nat), StoreInv s n → n + addCount tr < w64 →
      u ∈ keysOf s tr →
      u ∈ pendKeys (runFrom s tr) ∨ u ∈ storedKeys s tr ∨ u ∈ failedKeys s tr := by
  induction tr with
  | nil =>
    intro s n u _ _ h
    simp [keysOf] at h
  | cons e tr ih =>
    intro s n u hInv hw hk
    cases e with
    | add pw =>
      simp only [keysOf] at hk
      simp only [addCount] at hw
      simp only [runFrom, storedKeys, failedKeys]
      rcases List.mem_cons.mp hk with rfl | h2
      · refine task_fate tr _ (n + 1) _ (storeInv_add s n pw hInv (by omega)) (by omega) ?_
        rw [pendKeys_add]
        exact List.mem_append.mpr (Or.inr (by simp))
      · exact ih _ (n + 1) u (storeInv_add s n pw hInv (by omega)) (by omega) h2
    | complete v pw ok =>
      simp only [keysOf] at hk
      simp only [addCount] at hw
      simp only [runFrom, storedKeys, failedKeys]
      rcases ih _ n u (storeInv_complete s n v pw ok hInv) hw hk with h1 | h1 | h1
      · exact Or.inl h1
      · right
        left
        split
        · exact List.mem_cons_of_mem _ h1
        · exact h1
      · right
        right
        split
        · exact List.mem_cons_of_mem _ h1
        · exact h1

/-- Claim C7 (amended): as long as fewer than `2^64` submissions occur
(so the `uint64` key counter never wraps and keys are never reused),
records are write-once and never deleted: a stored digest is returned
unchanged by every later fetch; a key whose digest computation failed
stores nothing and remains absent in every continuation — and a
submitted key that fetches as absent is either still in flight or has
failed, failure being the sole way it can stay unresolved forever. -/
theorem store_write_once (tr tr2 : List StoreEv) (u : Nat)
    (hw : addCount tr + addCount tr2 < w64) :
    (∀ d, GetPasswordHash (runStore tr) u = some d →
      GetPasswordHash (runStore (tr ++ tr2)) u = some d) ∧
    (u ∈ failedKeys NewHashStorage tr →
      GetPasswordHash (runStore (tr ++ tr2)) u = none) ∧
    (u ∈ keysOf NewHashStorage tr → GetPasswordHash (runStore tr) u = none →
      u ∈ pendKeys (runStore tr) ∨ u ∈ failedKeys NewHashStorage tr) := by
  have hInvEnd : StoreInv (runStore tr) (addCount tr) := by
    have h := storeInv_run tr NewHashStorage 0 storeInv_init (by omega)
    simpa using h
  refine ⟨?_, ?_, ?_⟩
  · intro d hd
    rw [runStore, runFrom_append]
    exact lookup_preserved tr2 (runStore tr) (addCount tr) u d hInvEnd (by omega) hd
  · intro hf
    obtain ⟨hnot, hle⟩ := failed_gone tr NewHashStorage 0 u storeInv_init (by omega) hf
    rw [runStore, runFrom_append]
    have hgone : u ∉ allKeys (runFrom (runStore tr) tr2) :=
      dead_key tr2 (runStore tr) (addCount tr) u hInvEnd (by omega)
        (by simpa using hnot) (by omega)
    have hnd : u ∉ (runFrom (runStore tr) tr2).data.map Prod.fst :=
      fun hc => hgone (List.mem_append.mpr (Or.inl hc))
    exact lookup_none_of_not_mem hnd
  · intro hk hnone
    rcases key_fate tr NewHashStorage 0 u storeInv_init (by omega) hk with h1 | h1 | h1
    · exact Or.inl h1
    · obtain ⟨d, hd⟩ := stored_lookup tr NewHashStorage 0 u storeInv_init (by omega) h1
      rw [show GetPasswordHash (runStore tr) u = (runFrom NewHashStorage tr).data.lookup u
        from rfl] at hnone
      rw [hnone] at hd
      cases hd
    · exact Or.inr h1

/-- Witness for the amended C7: submit `"a"`, complete its task, then
submit `"b"`; key 1's digest survives the extension unchanged. -/
theorem store_write_once_w :
    addCount [StoreEv.add "a", StoreEv.complete 1 "a" true] +
        addCount [StoreEv.add "b"] < w64 ∧
    GetPasswordHash (runStore ([StoreEv.add "a", StoreEv.complete 1 "a" true] ++
        [StoreEv.add "b"])) 1 = some (hashOf "a") :=
  ⟨by decide,
    (store_write_once [StoreEv.add "a", StoreEv.complete 1 "a" true] [StoreEv.add "b"] 1
      (by decide)).1 (hashOf "a") (by decide)⟩

/-! ### Closed forms for pure-submission traces -/

theorem runStore_addsN (f : Nat → String) :
    ∀ n : Nat, runStore (addsN n f) =
      ⟨[], n % w64, (List.range n).map (fun k => ((k + 1) % w64, f k))⟩ := by
  intro n
  induction n with
  | zero => simp [runStore, runFrom, addsN, NewHashStorage]
  | succ n ih =>
    have hsplit : addsN (n + 1) f = addsN n f ++ [StoreEv.add (f n)] := by
      rw [addsN, addsN, List.range_succ, List.map_append]
      rfl
    rw [hsplit, runStore, runFrom_append, ← runStore, ih]
    simp only [runFrom, storeStep_add]
    rw [List.range_succ, List.map_append]
    simp [Nat.mod_add_mod]

theorem keysOf_addsN (f : Nat → String) :
    ∀ n : Nat, keysOf NewHashStorage (addsN n f) =
      (List.range n).map (fun k => (k + 1) % w64) := by
  intro n
  induction n with
  | zero => rfl
  | succ n ih =>
    have hsplit : addsN (n + 1) f = addsN n f ++ [StoreEv.add (f n)] := by
      rw [addsN, addsN, List.range_succ, List.map_append]
      rfl
    rw [hsplit, keysOf_append, ih]
    rw [show runFrom NewHashStorage (addsN n f) = runStore (addsN n f) from rfl]
    rw [runStore_addsN f n]
    rw [List.range_succ, List.map_append]
    simp only [keysOf, Nat.mod_add_mod, List.map_cons, List.map_nil]

/-- Claim C2 (amended): for every `N ≤ 2^64 - 1`, a sequence of `N`
`AddPassword` calls returns exactly the keys `1, 2, …, N` in order — the
set `{1..N}` with no duplicates and no gaps, the first call returning
`1`.  (At `N ≥ 2^64` the `uint64` counter wraps and keys repeat.) -/
theorem submit_keys_sequential (n : Nat) (f : Nat → String) (h : n < w64) :
    keysOf NewHashStorage (addsN n f) = (List.range n).map (fun k => k + 1) := by
  rw [keysOf_addsN]
  apply List.map_congr_left
  intro k hk
  have hk2 : k < n := List.mem_range.mp hk
  exact Nat.mod_eq_of_lt (by omega)

/-- Witness for the amended C2 at `N = 3`: the returned keys are
`[1, 2, 3]`. -/
theorem submit_keys_sequential_w :
    (3 : Nat) < w64 ∧
    keysOf NewHashStorage (addsN 3 (fun _ => "x")) = (List.range 3).map (fun k => k + 1) :=
  ⟨by decide, submit_keys_sequential 3 (fun _ => "x") (by decide)⟩

/-- Counterexample to C2 as frozen: with `N = 2^64` submissions, the
`uint64` counter wraps, so the `2^64`-th call returns key `0`, which is
not in `{1..N}`. -/
theorem submit_keys_wrap :
    0 ∈ keysOf NewHashStorage (addsN w64 (fun _ => "x")) ∧
    0 ∉ Finset.Icc 1 w64 := by
  constructor
  · rw [keysOf_addsN]
    refine List.mem_map.mpr ⟨w64 - 1, List.mem_range.mpr (by rw [w64_eq]; omega), ?_⟩
    rw [Nat.sub_add_cancel (by rw [w64_eq]; omega)]
    exact Nat.mod_self _
  · simp

/-- Counterexample to C7 as frozen: after `2^64 + 1` submissions the
counter wraps and key `1` is reused, so when the first task (secret
`"a"`) has stored its digest, the later task for the same key (secret
`"b"`) overwrites it — a later fetch returns a different digest. -/
theorem store_overwrite_on_wrap :
    GetPasswordHash (runStore cxTr) 1 = some (hashOf "a") ∧
    GetPasswordHash (runStore (cxTr ++ cxTr2)) 1 = some (hashOf "b") ∧
    hashOf "a" ≠ hashOf "b" := by
  have hw1 : (1 : Nat) < w64 := by rw [w64_eq]; omega
  have hPdec : (List.range (w64 + 1)).map (fun k => ((k + 1) % w64, cxF k)) =
      (1, "a") :: cxPtail := by
    rw [List.range_succ_eq_map, List.map_cons, List.map_map, cxPtail]
    congr 1
  have hrun1 : runStore cxTr = ⟨[(1, hashOf "a")], (w64 + 1) % w64, cxPtail⟩ := by
    rw [cxTr, runStore, runFrom_append, ← runStore, runStore_addsN cxF (w64 + 1), hPdec]
    rw [show ∀ (s : HashStorage) (e : StoreEv), runFrom s [e] = storeStep s e from
      fun s e => rfl]
    rw [storeStep_complete_ok2 [] ((w64 + 1) % w64) ((1, "a") :: cxPtail) 1 "a"
      (List.mem_cons_self _ _)]
    rw [List.erase_cons_head]
  have hmem2 : ((1 : Nat), "b") ∈ cxPtail := by
    rw [cxPtail]
    refine List.mem_map.mpr ⟨w64 - 1, List.mem_range.mpr (by rw [w64_eq]; omega), ?_⟩
    show ((w64 - 1 + 2) % w64, cxF (w64 - 1 + 1)) = (1, "b")
    rw [show w64 - 1 + 2 = w64 + 1 from by have h := w64_eq; omega,
      show w64 - 1 + 1 = w64 from by have h := w64_eq; omega]
    rw [Nat.add_mod_left, Nat.mod_eq_of_lt hw1]
    rw [show cxF w64 = "b" from by rw [cxF]; exact if_neg (by rw [w64_eq]; omega)]
  have hrun2 : runStore (cxTr ++ cxTr2) =
      ⟨(1, hashOf "b") :: [(1, hashOf "a")], (w64 + 1) % w64, cxPtail.erase (1, "b")⟩ := by
    rw [runStore, runFrom_append, ← runStore, hrun1, cxTr2]
    rw [show ∀ (s : HashStorage) (e : StoreEv), runFrom s [e] = storeStep s e from
      fun s e => rfl]
    rw [storeStep_complete_ok2 [(1, hashOf "a")] ((w64 + 1) % w64) cxPtail 1 "b" hmem2]
  refine ⟨?_, ?_, by decide⟩
  · rw [hrun1]
    exact lookup_cons_self
  · rw [hrun2]
    exact lookup_cons_self

/-! ### Digest results -/

/-- Claim C1: when the deferred task for a pending submission `(u, pw)`
completes successfully, the digest it stores — and that `GetPasswordHash`
then returns with `found = true` — is `hashOf pw`, the standard padded
base64 encoding of the SHA-512 digest of the secret's raw bytes; for the
secret `"angryMonkey"` that digest is exactly the expected constant. -/
theorem digest_stored_correct :
    (∀ (s : HashStorage) (u : Nat) (pw : String), (u, pw) ∈ s.pending →
      GetPasswordHash (storeStep s (StoreEv.complete u pw true)) u = some (hashOf pw)) ∧
    hashOf "angryMonkey" =
      "ZEHhWB65gUlzdVwtDQArEyx+KVLzp/aTaRaPlBzYRIFj6vjFdqEb0Q5B8zVKCZ0vKbZPZklJz0Fd7su2A+gf7Q==" := by
  constructor
  · intro s u pw h
    rw [storeStep_complete_ok s u pw h]
    exact lookup_cons_self
  · decide

/-- Witness for C1: completing the pending `"angryMonkey"` task on key 1
makes the fetch return its digest. -/
theorem digest_stored_correct_w :
    ((1 : Nat), "angryMonkey") ∈ (⟨[], 1, [(1, "angryMonkey")]⟩ : HashStorage).pending ∧
    GetPasswordHash (storeStep ⟨[], 1, [(1, "angryMonkey")]⟩
      (StoreEv.complete 1 "angryMonkey" true)) 1 = some (hashOf "angryMonkey") :=
  ⟨by decide,
    digest_stored_correct.1 ⟨[], 1, [(1, "angryMonkey")]⟩ 1 "angryMonkey" (by decide)⟩

theorem b64Encode_length : ∀ bs : List Nat,
    (b64Encode bs).length = 4 * ((bs.length + 2) / 3)
  | [] => rfl
  | [_] => by simp [b64Encode]
  | [_, _] => by simp [b64Encode]
  | _ :: _ :: _ :: rest => by
    have ih := b64Encode_length rest
    simp only [b64Encode, List.length_cons, ih]
    omega

theorem sha512Bytes_length (msg : List Nat) : (sha512Bytes msg).length = 64 := by
  simp [sha512Bytes, digestBytes, bytes8]

theorem hashOf_length (pw : String) : (hashOf pw).length = 88 := by
  show (b64Encode (sha512Bytes (utf8Bytes pw))).length = 88
  rw [b64Encode_length, sha512Bytes_length]

/-- Claim C8: `AddPassword` is a total function — for every secret
string (the empty string included) it returns normally with the
incremented key and the scheduled task, and the digest computation is a
total function producing an 88-character digest for every string, so
submission never fails and empty input cannot crash the core. -/
theorem submit_never_fails (s : HashStorage) (pw : String) :
    (AddPassword s pw).1 = (s.currentKey + 1) % w64 ∧
    AddPassword s pw =
      ((s.currentKey + 1) % w64,
        ⟨s.data, (s.currentKey + 1) % w64, s.pending ++ [((s.currentKey + 1) % w64, pw)]⟩) ∧
    (hashOf pw).length = 88 :=
  ⟨rfl, rfl, hashOf_length pw⟩
